import Mathlib

set_option maxHeartbeats 1000000

/-!
Verification of the zmon-cli configuration/authentication pipeline and the
YAML normalization layer (`zmon_cli/main.py`), as a shallow embedding.

Python strings are modelled as `String`/`List Char`; Python's `str` ordering
is code-point lexicographic ordering; Python's default `str.strip`/`rstrip`
whitespace set is modelled by its ASCII part (all inputs in the claims and
counterexamples are ASCII).
-/

namespace ZmonCli

/-! ### Python string primitives -/

/-- The ASCII whitespace characters stripped by Python's `str.strip()` /
`str.rstrip()` with no argument. -/
def pyWhitespace : List Char := [' ', '\t', '\n', '\r', '\x0b', '\x0c']

def isPySpace (c : Char) : Bool := pyWhitespace.contains c

/-- Python `s.lstrip()` on a list of characters. -/
def lstripL (l : List Char) : List Char := l.dropWhile isPySpace

/-- Python `s.rstrip()` on a list of characters. -/
def rstripL (l : List Char) : List Char := (l.reverse.dropWhile isPySpace).reverse

/-- Python `s.strip()` on a list of characters. -/
def stripL (l : List Char) : List Char := rstripL (lstripL l)

/-- Python `s.split('\n')` on a list of characters:
`''.split('\n') == ['']`, `'a\n'.split('\n') == ['a', '']`. -/
def splitNlL : List Char → List (List Char)
  | [] => [[]]
  | c :: cs =>
    if c = '\n' then [] :: splitNlL cs
    else
      match splitNlL cs with
      | [] => [[c]]
      | l :: ls => (c :: l) :: ls

/-- Python `'\n'.join(ls)` on lists of characters. -/
def joinNlL : List (List Char) → List Char
  | [] => []
  | [l] => l
  | l :: ls => l ++ '\n' :: joinNlL ls

/--
`remove_trailing_whitespace` from `zmon_cli/main.py`:
`'\n'.join([line.rstrip() for line in text.strip().split('\n')])`.
-/
def remove_trailing_whitespace (s : String) : String :=
  ⟨joinNlL ((splitNlL (stripL s.data)).map rstripL)⟩

/-- Python code-point lexicographic `<=` on strings (as char lists). -/
def pyLeCh : List Char → List Char → Bool
  | [], _ => true
  | _ :: _, [] => false
  | a :: as, b :: bs =>
    if a.toNat < b.toNat then true
    else if b.toNat < a.toNat then false
    else pyLeCh as bs

theorem pyLeCh_total : ∀ x y : List Char, pyLeCh x y = true ∨ pyLeCh y x = true := by
  intro x
  induction x with
  | nil => intro y; left; rfl
  | cons a as ih =>
    intro y
    cases y with
    | nil => right; rfl
    | cons b bs =>
      simp only [pyLeCh]
      rcases Nat.lt_trichotomy a.toNat b.toNat with h | h | h
      · left; simp [h]
      · have h1 : ¬ a.toNat < b.toNat := by omega
        have h2 : ¬ b.toNat < a.toNat := by omega
        rcases ih bs with hc | hc
        · left; simp [h1, h2, hc]
        · right; simp [h1, h2, hc]
      · right; simp [h]

theorem pyLeCh_trans :
    ∀ x y z : List Char, pyLeCh x y = true → pyLeCh y z = true → pyLeCh x z = true := by
  intro x
  induction x with
  | nil => intro y z _ _; rfl
  | cons a as ih =>
    intro y z hxy hyz
    cases y with
    | nil => simp [pyLeCh] at hxy
    | cons b bs =>
      cases z with
      | nil => simp [pyLeCh] at hyz
      | cons c cs =>
        simp only [pyLeCh] at hxy hyz ⊢
        rcases Nat.lt_trichotomy b.toNat a.toNat with h1 | h1 | h1
        · -- a > b: hxy is `false = true`
          have h1' : ¬ a.toNat < b.toNat := by omega
          simp [h1', h1] at hxy
        · rcases Nat.lt_trichotomy c.toNat b.toNat with h2 | h2 | h2
          · -- b > c: hyz is `false = true`
            have h2' : ¬ b.toNat < c.toNat := by omega
            simp [h2', h2] at hyz
          · -- a = b, b = c: recurse
            have h1' : ¬ a.toNat < b.toNat := by omega
            have h2' : ¬ b.toNat < c.toNat := by omega
            have hac : ¬ a.toNat < c.toNat := by omega
            have hca : ¬ c.toNat < a.toNat := by omega
            simp only [if_neg h1', if_neg (by omega : ¬ b.toNat < a.toNat)] at hxy
            simp only [if_neg h2', if_neg (by omega : ¬ c.toNat < b.toNat)] at hyz
            simp only [if_neg hac, if_neg hca]
            exact ih bs cs hxy hyz
          · -- a = b, b < c
            have : a.toNat < c.toNat := by omega
            simp [this]
        · rcases Nat.lt_trichotomy c.toNat b.toNat with h2 | h2 | h2
          · -- a < b, b > c: need more care; hyz forces contradiction
            have h2' : ¬ b.toNat < c.toNat := by omega
            simp [h2', h2] at hyz
          · -- a < b, b = c
            have : a.toNat < c.toNat := by omega
            simp [this]
          · -- a < b, b < c
            have : a.toNat < c.toNat := by omega
            simp [this]

/-! ### Lemmas about the string primitives -/

theorem splitNlL_ne_nil : ∀ l : List Char, splitNlL l ≠ [] := by
  intro l
  cases l with
  | nil => simp [splitNlL]
  | cons c cs =>
    simp only [splitNlL]
    split
    · simp
    · split <;> simp

theorem mem_splitNlL_no_nl : ∀ (l : List Char) (x : List Char), x ∈ splitNlL l → '\n' ∉ x := by
  intro l
  induction l with
  | nil =>
    intro x hx
    simp [splitNlL] at hx
    simp [hx]
  | cons c cs ih =>
    intro x hx
    simp only [splitNlL] at hx
    by_cases hc : c = '\n'
    · rw [if_pos hc] at hx
      rcases List.mem_cons.mp hx with h | h
      · simp [h]
      · exact ih x h
    · rw [if_neg hc] at hx
      cases hs : splitNlL cs with
      | nil => exact absurd hs (splitNlL_ne_nil cs)
      | cons l ls =>
        rw [hs] at hx
        rcases List.mem_cons.mp hx with h | h
        · subst h
          intro hmem
          rcases List.mem_cons.mp hmem with h | h
          · exact hc h.symm
          · exact ih l (hs ▸ List.mem_cons_self l ls) h
        · exact ih x (hs ▸ List.mem_cons.mpr (Or.inr h))

theorem splitNlL_single {l : List Char} (h : '\n' ∉ l) : splitNlL l = [l] := by
  induction l with
  | nil => rfl
  | cons c cs ih =>
    have hc : ¬ c = '\n' := fun hc => h (hc ▸ List.mem_cons_self c cs)
    have hcs : '\n' ∉ cs := fun hm => h (List.mem_cons.mpr (Or.inr hm))
    simp only [splitNlL, if_neg hc, ih hcs]

theorem splitNlL_append_nl {l : List Char} (r : List Char) (h : '\n' ∉ l) :
    splitNlL (l ++ '\n' :: r) = l :: splitNlL r := by
  induction l with
  | nil => simp [splitNlL]
  | cons c cs ih =>
    have hc : ¬ c = '\n' := fun hc => h (hc ▸ List.mem_cons_self c cs)
    have hcs : '\n' ∉ cs := fun hm => h (List.mem_cons.mpr (Or.inr hm))
    simp only [List.cons_append, splitNlL, if_neg hc]
    rw [show cs.append ('\n' :: r) = cs ++ '\n' :: r from rfl, ih hcs]

theorem splitNlL_joinNlL :
    ∀ ls : List (List Char), ls ≠ [] → (∀ x ∈ ls, '\n' ∉ x) → splitNlL (joinNlL ls) = ls := by
  intro ls
  induction ls with
  | nil => intro h; exact absurd rfl h
  | cons l ls ih =>
    intro _ hnl
    cases ls with
    | nil =>
      simp only [joinNlL]
      exact splitNlL_single (hnl l (List.mem_cons_self l []))
    | cons m ms =>
      have hstep : joinNlL (l :: m :: ms) = l ++ '\n' :: joinNlL (m :: ms) := rfl
      rw [hstep, splitNlL_append_nl _ (hnl l (List.mem_cons_self l (m :: ms)))]
      rw [ih (by simp) (fun x hx => hnl x (List.mem_cons.mpr (Or.inr hx)))]

theorem dropWhile_idem (p : Char → Bool) (l : List Char) :
    (l.dropWhile p).dropWhile p = l.dropWhile p := by
  induction l with
  | nil => rfl
  | cons c cs ih =>
    by_cases hc : p c
    · simp [List.dropWhile_cons, hc, ih]
    · simp [List.dropWhile_cons, hc]

theorem rstripL_idem (l : List Char) : rstripL (rstripL l) = rstripL l := by
  simp only [rstripL, List.reverse_reverse, dropWhile_idem]

theorem mem_rstripL {c : Char} {l : List Char} (h : c ∈ rstripL l) : c ∈ l := by
  simp only [rstripL, List.mem_reverse] at h
  exact List.mem_reverse.mp (List.dropWhile_sublist isPySpace |>.subset h)

/-- Every line of `remove_trailing_whitespace s` is a fixed point of `rstrip`. -/
theorem remove_trailing_whitespace_lines (s : String) :
    ∀ line ∈ splitNlL (remove_trailing_whitespace s).data, rstripL line = line := by
  intro line hline
  have hdata : (remove_trailing_whitespace s).data
      = joinNlL ((splitNlL (stripL s.data)).map rstripL) := rfl
  rw [hdata] at hline
  have hsplit : splitNlL (joinNlL ((splitNlL (stripL s.data)).map rstripL))
      = (splitNlL (stripL s.data)).map rstripL := by
    apply splitNlL_joinNlL
    · intro h
      exact splitNlL_ne_nil (stripL s.data) (List.map_eq_nil_iff.mp h)
    · intro x hx
      rcases List.mem_map.mp hx with ⟨y, hy, hxy⟩
      intro hmem
      rw [← hxy] at hmem
      exact mem_splitNlL_no_nl _ y hy (mem_rstripL hmem)
  rw [hsplit] at hline
  rcases List.mem_map.mp hline with ⟨y, _, hxy⟩
  rw [← hxy, rstripL_idem]

/-! ### DocumentCodec: the YAML dump/load layer of `zmon_cli/main.py`

A document is modelled as an association list of string keys and scalar
values (the shapes the claims exercise).  The PyYAML emitter/parser pair
is modelled as content-faithful: the emitted node for a value is either a
plain scalar or a literal block (`literal_unicode`), and `yaml.safe_load`
recovers exactly the scalar content (a `literal_unicode` loads back as a
plain string with the same characters). -/

instance {ε α : Type} [DecidableEq ε] [DecidableEq α] : DecidableEq (Except ε α) := fun a b =>
  match a, b with
  | .ok x, .ok y =>
    if h : x = y then .isTrue (by rw [h]) else .isFalse (by intro hc; cases hc; exact h rfl)
  | .error x, .error y =>
    if h : x = y then .isTrue (by rw [h]) else .isFalse (by intro hc; cases hc; exact h rfl)
  | .ok _, .error _ => .isFalse (by intro hc; cases hc)
  | .error _, .ok _ => .isFalse (by intro hc; cases hc)

/-- A YAML scalar value in a document. -/
inductive YVal where
  | str (v : String)
  | int (v : Int)
  | bool (v : Bool)
  | null
  deriving DecidableEq, Repr

/-- An emitted YAML node: either a plain scalar or a literal block
(`style='|'`, produced for `literal_unicode` values). -/
inductive YOut where
  | plain (v : YVal)
  | literalBlock (v : String)
  deriving DecidableEq, Repr

abbrev Doc := List (String × YVal)
abbrev OutDoc := List (String × YOut)

/-- Errors of the embedded code. -/
inductive Err where
  | configError
  | attributeError
  deriving DecidableEq, Repr

/-- `LITERAL_FIELDS` from `zmon_cli/main.py`. -/
def LITERAL_FIELDS : List String := ["command", "condition", "description"]

/-- `FIELD_ORDER` from `zmon_cli/main.py`. -/
def FIELD_ORDER : List String :=
  ["id", "check_definition_id", "type", "name", "team", "owning_team", "responsible_team",
   "description", "condition", "command", "interval", "entities", "entities_exclude", "status",
   "last_modified_by"]

def idxFrom : List String → Nat → String → Option Nat
  | [], _, _ => none
  | f :: fs, i, k => if k = f then some i else idxFrom fs (i + 1) k

/-- `FIELD_SORT_INDEX = {k: chr(i) for i, k in enumerate(FIELD_ORDER)}`:
the position of a key in `FIELD_ORDER`, if any. -/
def FIELD_SORT_INDEX (k : String) : Option Nat := idxFrom FIELD_ORDER 0 k

/-- The sort key used by `CustomDumper.represent_mapping`:
`FIELD_SORT_INDEX.get(key, key)`, i.e. `chr(i)` for a listed key and the
key itself otherwise. -/
def fieldSortKey (k : String) : List Char :=
  match FIELD_SORT_INDEX k with
  | some i => [Char.ofNat i]
  | none => k.data

/-- Sorting relation of the base PyYAML dumper (`sorted(mapping.items())`):
lexicographic on the keys. -/
def entryLex (a b : String × YOut) : Prop := pyLeCh a.1.data b.1.data = true

/-- Sorting relation of `CustomDumper.represent_mapping`:
`sorted(node.value, key=lambda x: FIELD_SORT_INDEX.get(x[0].value, x[0].value))`. -/
def entryRel (a b : String × YOut) : Prop := pyLeCh (fieldSortKey a.1) (fieldSortKey b.1) = true

instance : DecidableRel entryLex := fun _ _ => inferInstanceAs (Decidable (_ = true))
instance : DecidableRel entryRel := fun _ _ => inferInstanceAs (Decidable (_ = true))

instance : IsTotal (String × YOut) entryLex := ⟨fun _ _ => pyLeCh_total _ _⟩
instance : IsTrans (String × YOut) entryLex := ⟨fun _ _ _ => pyLeCh_trans _ _ _⟩
instance : IsTotal (String × YOut) entryRel := ⟨fun _ _ => pyLeCh_total _ _⟩
instance : IsTrans (String × YOut) entryRel := ⟨fun _ _ _ => pyLeCh_trans _ _ _⟩

/-- The key ordering performed during emission: the base dumper first sorts
items lexically, then `CustomDumper.represent_mapping` re-sorts them by
`fieldSortKey` (Python's `sorted` is a stable sort, modelled by insertion
sort). -/
def sortEntries (d : OutDoc) : OutDoc :=
  List.insertionSort entryRel (List.insertionSort entryLex d)

/-- The per-entry transformation of `dump_yaml`'s loop:
literal fields are wrapped as `literal_unicode(remove_trailing_whitespace(val))`;
a non-string value of a literal field makes `val.strip()` raise
`AttributeError`. -/
def encEntry : String × YVal → Except Err (String × YOut)
  | (k, v) =>
    if k ∈ LITERAL_FIELDS then
      match v with
      | .str s => .ok (k, .literalBlock (remove_trailing_whitespace s))
      | _ => .error .attributeError
    else .ok (k, .plain v)

def encodeEntries : Doc → Except Err OutDoc
  | [] => .ok []
  | kv :: rest =>
    match encEntry kv with
    | .error e => .error e
    | .ok ek =>
      match encodeEntries rest with
      | .error e => .error e
      | .ok es => .ok (ek :: es)

/-- `dump_yaml` from `zmon_cli/main.py`: transform the literal fields, then
emit with the custom key ordering. -/
def dump_yaml (d : Doc) : Except Err OutDoc :=
  (encodeEntries d).map sortEntries

/-- `yaml.safe_load` applied to the emitted text: recovers the scalar
content of each node (a literal block is just a string). -/
def safe_load_entry : String × YOut → String × YVal
  | (k, .plain v) => (k, v)
  | (k, .literalBlock s) => (k, .str s)

def safe_load (out : OutDoc) : Doc := out.map safe_load_entry

/-- `decode(encode(d))`: dump a document and parse it back. -/
def roundTrip (d : Doc) : Except Err Doc := (dump_yaml d).map safe_load

/-! ### Codec lemmas -/

theorem sortEntries_perm (l : OutDoc) : (sortEntries l).Perm l :=
  (List.perm_insertionSort entryRel _).trans (List.perm_insertionSort entryLex l)

theorem mem_sortEntries {e : String × YOut} {l : OutDoc} : e ∈ sortEntries l ↔ e ∈ l :=
  (sortEntries_perm l).mem_iff

theorem encEntry_key {kv : String × YVal} {e : String × YOut} (h : encEntry kv = .ok e) :
    e.1 = kv.1 := by
  obtain ⟨k, v⟩ := kv
  simp only [encEntry] at h
  split at h
  · split at h
    · cases h; rfl
    all_goals cases h
  · cases h; rfl

theorem encodeEntries_mem_src {d : Doc} {l : OutDoc} (h : encodeEntries d = .ok l) :
    ∀ e ∈ l, ∃ kv ∈ d, encEntry kv = .ok e := by
  induction d generalizing l with
  | nil =>
    simp only [encodeEntries] at h
    cases h
    intro e he
    cases he
  | cons kv rest ih =>
    simp only [encodeEntries] at h
    cases hkv : encEntry kv with
    | error e0 => rw [hkv] at h; cases h
    | ok ek =>
      rw [hkv] at h
      cases hrest : encodeEntries rest with
      | error e0 => rw [hrest] at h; cases h
      | ok es =>
        rw [hrest] at h
        cases h
        intro e he
        rcases List.mem_cons.mp he with h1 | h1
        · exact ⟨kv, List.mem_cons_self kv rest, h1 ▸ hkv⟩
        · rcases ih hrest e h1 with ⟨kv', hkv', he'⟩
          exact ⟨kv', List.mem_cons.mpr (Or.inr hkv'), he'⟩

theorem encodeEntries_mem_img {d : Doc} {l : OutDoc} (h : encodeEntries d = .ok l) :
    ∀ kv ∈ d, ∃ e ∈ l, encEntry kv = .ok e := by
  induction d generalizing l with
  | nil => intro kv hkv; cases hkv
  | cons kv0 rest ih =>
    simp only [encodeEntries] at h
    cases hkv : encEntry kv0 with
    | error e0 => rw [hkv] at h; cases h
    | ok ek =>
      rw [hkv] at h
      cases hrest : encodeEntries rest with
      | error e0 => rw [hrest] at h; cases h
      | ok es =>
        rw [hrest] at h
        cases h
        intro kv hmem
        rcases List.mem_cons.mp hmem with h1 | h1
        · exact ⟨ek, List.mem_cons_self ek es, h1 ▸ hkv⟩
        · rcases ih hrest kv h1 with ⟨e, he, henc⟩
          exact ⟨e, List.mem_cons.mpr (Or.inr he), henc⟩

/-- A literal-field value is acceptable for the identity round trip when it
is a string fixed by `remove_trailing_whitespace`. -/
def litOk (v : YVal) : Bool :=
  match v with
  | .str s => remove_trailing_whitespace s = s
  | _ => false

theorem encodeEntries_id {d : Doc}
    (H : ∀ kv ∈ d, kv.1 ∈ LITERAL_FIELDS → litOk kv.2 = true) :
    ∃ l, encodeEntries d = .ok l ∧ safe_load l = d := by
  induction d with
  | nil => exact ⟨[], rfl, rfl⟩
  | cons kv rest ih =>
    obtain ⟨l, hl, hload⟩ := ih fun kv' h' => H kv' (List.mem_cons.mpr (Or.inr h'))
    obtain ⟨k, v⟩ := kv
    by_cases hk : k ∈ LITERAL_FIELDS
    · have hv := H (k, v) (List.mem_cons_self _ _) hk
      cases v with
      | str s =>
        have hs : remove_trailing_whitespace s = s := by
          simpa [litOk] using hv
        refine ⟨(k, .literalBlock (remove_trailing_whitespace s)) :: l, ?_, ?_⟩
        · simp only [encodeEntries, encEntry, if_pos hk, hl]
        · simp only [safe_load, List.map_cons, safe_load_entry, hs]
          simp only [safe_load] at hload
          rw [hload]
      | int n => simp [litOk] at hv
      | bool b => simp [litOk] at hv
      | null => simp [litOk] at hv
    · refine ⟨(k, .plain v) :: l, ?_, ?_⟩
      · simp only [encodeEntries, encEntry, if_neg hk, hl]
      · simp only [safe_load, List.map_cons, safe_load_entry]
        simp only [safe_load] at hload
        rw [hload]

/-! ### Key-ordering lemmas -/

theorem idxFrom_lt : ∀ (l : List String) (i : Nat) (k : String) (j : Nat),
    idxFrom l i k = some j → j < i + l.length := by
  intro l
  induction l with
  | nil => intro i k j h; cases h
  | cons f fs ih =>
    intro i k j h
    simp only [idxFrom] at h
    split at h
    · cases h; simp
    · have := ih (i + 1) k j h
      simp only [List.length_cons]
      omega

theorem FIELD_SORT_INDEX_lt {k : String} {i : Nat} (h : FIELD_SORT_INDEX k = some i) :
    i < 15 := by
  have := idxFrom_lt FIELD_ORDER 0 k i h
  simpa [FIELD_ORDER] using this

theorem chr_toNat {i : Nat} (h : i < 15) : (Char.ofNat i).toNat = i := by
  interval_cases i <;> decide

theorem pyLeCh_single {x y : Char} : pyLeCh [x] [y] = true ↔ x.toNat ≤ y.toNat := by
  simp only [pyLeCh]
  constructor
  · intro h
    by_cases h1 : x.toNat < y.toNat
    · omega
    · by_cases h2 : y.toNat < x.toNat
      · rw [if_neg h1, if_pos h2] at h; cases h
      · omega
  · intro h
    by_cases h1 : x.toNat < y.toNat
    · rw [if_pos h1]
    · have h2 : ¬ y.toNat < x.toNat := by omega
      rw [if_neg h1, if_neg h2]

/-- Is the key in the priority list `FIELD_ORDER`? -/
def isListed (k : String) : Bool := (FIELD_SORT_INDEX k).isSome

/-- An "ordinary" key: listed, or nonempty with its first code point at least
15 (all printable keys qualify).  Unlisted keys below this threshold compare
below some `chr(i)` sort keys of the priority list. -/
def goodKey (k : String) : Bool :=
  isListed k ||
    (match k.data with
     | [] => false
     | c :: _ => 15 ≤ c.toNat)

/-- The ordering the claim asserts between two adjacent emitted entries:
listed keys in priority order, every listed key before every unlisted key,
unlisted keys in lexical order. -/
def pairOkB (a b : String × YOut) : Bool :=
  match FIELD_SORT_INDEX a.1, FIELD_SORT_INDEX b.1 with
  | some i, some j => i ≤ j
  | some _, none => true
  | none, some _ => false
  | none, none => pyLeCh a.1.data b.1.data

/-- The claim's key-ordering property of an emitted document. -/
def claimC4Ordered (out : OutDoc) : Prop := out.Pairwise (fun a b => pairOkB a b = true)

theorem pairOkB_of_entryRel {a b : String × YOut} (ha : goodKey a.1 = true)
    (_hb : goodKey b.1 = true) (h : entryRel a b) : pairOkB a b = true := by
  simp only [entryRel, fieldSortKey] at h
  simp only [pairOkB]
  cases hia : FIELD_SORT_INDEX a.1 with
  | some i =>
    cases hib : FIELD_SORT_INDEX b.1 with
    | some j =>
      rw [hia, hib] at h
      have hi := FIELD_SORT_INDEX_lt hia
      have hj := FIELD_SORT_INDEX_lt hib
      rw [pyLeCh_single, chr_toNat hi, chr_toNat hj] at h
      simpa using h
    | none => rfl
  | none =>
    have ha' : (match a.1.data with | [] => false | c :: _ => decide (15 ≤ c.toNat)) = true := by
      simpa [goodKey, isListed, hia] using ha
    cases hib : FIELD_SORT_INDEX b.1 with
    | some j =>
      rw [hia, hib] at h
      have hj := FIELD_SORT_INDEX_lt hib
      cases hd : a.1.data with
      | nil => rw [hd] at ha'; simp at ha'
      | cons c cs =>
        rw [hd] at ha' h
        have hc : 15 ≤ c.toNat := by simpa using ha'
        simp only [pyLeCh] at h
        have h1 : ¬ c.toNat < (Char.ofNat j).toNat := by rw [chr_toNat hj]; omega
        have h2 : (Char.ofNat j).toNat < c.toNat := by rw [chr_toNat hj]; omega
        rw [if_neg h1, if_pos h2] at h
        cases h
    | none =>
      rw [hia, hib] at h
      exact h

/-! ### Claim C3: round trip -/

/-- A string that does not differ from its whitespace-normalized form by
trailing whitespace only: per-line trailing whitespace and whole-value
trailing whitespace are already absent. -/
def trailingClean (s : String) : Bool :=
  (joinNlL ((splitNlL s.data).map rstripL) = s.data) && (rstripL s.data = s.data)

def trailingCleanVal (v : YVal) : Bool :=
  match v with
  | .str s => trailingClean s
  | _ => true

/-- Claim C3 as stated, instantiated at a document: if no literal-field value
has a trailing-whitespace-only distinction, decode ∘ encode is the identity
up to mapping equality. -/
def claimC3At (d : Doc) : Prop :=
  (∀ kv ∈ d, kv.1 ∈ LITERAL_FIELDS → trailingCleanVal kv.2 = true) →
  ∃ r, roundTrip d = .ok r ∧ r.Perm d

/--
C3 (counterexample): the claim fails at `{"description": "  x"}`.  The value
has no trailing-whitespace distinction at all (only leading whitespace), yet
`dump_yaml` routes it through `text.strip()`, so the decoded document holds
`"x"` and is not semantically equal to the original.
-/
theorem C3_roundTrip_cex : ¬ claimC3At [("description", YVal.str "  x")] := by
  intro h
  obtain ⟨r, hr, hp⟩ := h (by decide)
  have hc : roundTrip [("description", YVal.str "  x")]
      = .ok [("description", YVal.str "x")] := by decide
  rw [hc] at hr
  cases hr
  exact absurd hp (by decide)

/--
C3 (amended): for every document whose literal-field values are strings fixed
by `remove_trailing_whitespace` (no leading/trailing whitespace around the
value and no trailing whitespace on any line), decoding the encoding yields a
document semantically equal (as a mapping, i.e. up to permutation of entries)
to the original.
-/
theorem C3_roundTrip (d : Doc)
    (H : ∀ kv ∈ d, kv.1 ∈ LITERAL_FIELDS → litOk kv.2 = true) :
    ∃ r, roundTrip d = .ok r ∧ r.Perm d := by
  obtain ⟨l, henc, hload⟩ := encodeEntries_id H
  refine ⟨safe_load (sortEntries l), ?_, ?_⟩
  · simp only [roundTrip, dump_yaml, henc, Except.map]
  · have hperm := (sortEntries_perm l).map safe_load_entry
    simp only [safe_load] at hload
    rw [hload] at hperm
    exact hperm

/-- Witness for `C3_roundTrip` at a concrete document. -/
theorem C3_roundTrip_witness :
    ∃ r, roundTrip [("description", YVal.str "a\nb"), ("interval", YVal.int 60)] = .ok r ∧
      r.Perm [("description", YVal.str "a\nb"), ("interval", YVal.int 60)] :=
  C3_roundTrip [("description", YVal.str "a\nb"), ("interval", YVal.int 60)] (by decide)

/-! ### Claim C4: key ordering -/

/--
C4 (amended): for documents all of whose keys are "ordinary" (`goodKey`:
listed in `FIELD_ORDER`, or nonempty with first code point ≥ 15 — every
printable key qualifies), the emitted entries are ordered with listed keys
in priority order, every listed key before every unlisted key, and unlisted
keys in lexical order; and encoding `{"name": "x", "id": 1, "team": "t"}`
places `id` before `name` before `team`.
-/
theorem C4_key_order :
    (∀ (d : Doc) (out : OutDoc), (∀ kv ∈ d, goodKey kv.1 = true) →
        dump_yaml d = .ok out → claimC4Ordered out) ∧
      dump_yaml [("name", YVal.str "x"), ("id", YVal.int 1), ("team", YVal.str "t")] =
        .ok [("id", YOut.plain (YVal.int 1)), ("name", YOut.plain (YVal.str "x")),
          ("team", YOut.plain (YVal.str "t"))] := by
  constructor
  · intro d out hgood hdump
    simp only [dump_yaml] at hdump
    cases henc : encodeEntries d with
    | error e => rw [henc] at hdump; cases hdump
    | ok l =>
      rw [henc] at hdump
      have hout : out = sortEntries l := by simpa [Except.map] using hdump.symm
      subst hout
      have hkeys : ∀ e ∈ l, goodKey e.1 = true := by
        intro e he
        rcases encodeEntries_mem_src henc e he with ⟨kv, hkv, hek⟩
        rw [encEntry_key hek]
        exact hgood kv hkv
      have hsorted : (sortEntries l).Pairwise entryRel :=
        List.sorted_insertionSort entryRel (List.insertionSort entryLex l)
      refine List.Pairwise.imp_of_mem ?_ hsorted
      intro a b hamem hbmem hrel
      exact pairOkB_of_entryRel (hkeys a (mem_sortEntries.mp hamem))
        (hkeys b (mem_sortEntries.mp hbmem)) hrel
  · decide

/-- Witness for `C4_key_order` at the concrete example document. -/
theorem C4_key_order_witness :
    claimC4Ordered [("id", YOut.plain (YVal.int 1)), ("name", YOut.plain (YVal.str "x")),
      ("team", YOut.plain (YVal.str "t"))] :=
  C4_key_order.1 [("name", YVal.str "x"), ("id", YVal.int 1), ("team", YVal.str "t")] _
    (by decide) C4_key_order.2

/--
C4 (counterexample): an unlisted key whose first code point is below 15
(here `"\x01x"`) is emitted before the listed key `"type"`, violating
"every key in the list appears before every key not in it": the sort key of
a listed key is `chr(i)` with `i ≤ 14`, and plain string comparison places
`"\x01x"` below `chr(2)`.
-/
theorem C4_key_order_cex :
    dump_yaml [("type", YVal.int 1), ("\x01x", YVal.int 2)] =
        .ok [("\x01x", YOut.plain (YVal.int 2)), ("type", YOut.plain (YVal.int 1))] ∧
      ¬ claimC4Ordered [("\x01x", YOut.plain (YVal.int 2)), ("type", YOut.plain (YVal.int 1))] := by
  constructor
  · decide
  · unfold claimC4Ordered
    decide

/-! ### Claim C7: literal-field rendering -/

/-- Does the emitted document contain the given entry (trivially true if
encoding fails)? -/
def dumpHasEntry (d : Doc) (e : String × YOut) : Bool :=
  match dump_yaml d with
  | .ok out => out.contains e
  | .error _ => true

/-- The normalization the claim describes: strip trailing whitespace from
every line and from the whole value — and nothing else. -/
def trailingNorm (s : String) : String :=
  ⟨rstripL (joinNlL ((splitNlL s.data).map rstripL))⟩

/-- Claim C7 as stated, instantiated at a document and a literal field: the
rendered literal block holds the trailing-whitespace-only normalization of
the value. -/
def claimC7At (d : Doc) (k s : String) : Prop :=
  (k, YVal.str s) ∈ d → k ∈ LITERAL_FIELDS →
  dumpHasEntry d (k, YOut.literalBlock (trailingNorm s)) = true

/--
C7 (counterexample): encoding `{"description": "  x"}` yields the literal
block `"x"`, not `"  x"`: `remove_trailing_whitespace` begins with
`text.strip()`, which also removes leading whitespace, so trailing-whitespace
stripping is not all that happens.
-/
theorem C7_literal_cex : ¬ claimC7At [("description", YVal.str "  x")] "description" "  x" := by
  unfold claimC7At
  decide

/--
C7 (amended): for every document and literal-field key with a string value,
the emitted document renders that field as a literal block whose content is
`remove_trailing_whitespace` of the value — the value stripped of leading and
trailing whitespace as a whole and of trailing whitespace on every line — so
no line of the rendered content has trailing whitespace; and encoding
`{"description": "line1   \nline2  "}` yields the literal block
`"line1\nline2"`.
-/
theorem C7_literal :
    (∀ (d : Doc) (out : OutDoc) (k s : String),
        dump_yaml d = .ok out → (k, YVal.str s) ∈ d → k ∈ LITERAL_FIELDS →
        (k, YOut.literalBlock (remove_trailing_whitespace s)) ∈ out ∧
          ∀ line ∈ splitNlL (remove_trailing_whitespace s).data, rstripL line = line) ∧
      dump_yaml [("description", YVal.str "line1   \nline2  ")] =
        .ok [("description", YOut.literalBlock "line1\nline2")] := by
  constructor
  · intro d out k s hdump hmem hk
    simp only [dump_yaml] at hdump
    cases henc : encodeEntries d with
    | error e => rw [henc] at hdump; cases hdump
    | ok l =>
      rw [henc] at hdump
      have hout : out = sortEntries l := by simpa [Except.map] using hdump.symm
      subst hout
      constructor
      · rcases encodeEntries_mem_img henc (k, YVal.str s) hmem with ⟨e, he, hek⟩
        have hval : encEntry (k, YVal.str s)
            = .ok (k, YOut.literalBlock (remove_trailing_whitespace s)) := by
          simp [encEntry, hk]
        rw [hval] at hek
        cases hek
        exact mem_sortEntries.mpr he
      · exact remove_trailing_whitespace_lines s
  · decide

/-- Witness for `C7_literal` at the concrete example document. -/
theorem C7_literal_witness :
    ("description", YOut.literalBlock (remove_trailing_whitespace "line1   \nline2  "))
        ∈ [("description", YOut.literalBlock "line1\nline2")] :=
  (C7_literal.1 [("description", YVal.str "line1   \nline2  ")]
    [("description", YOut.literalBlock "line1\nline2")] "description" "line1   \nline2  "
    C7_literal.2 (by decide) (by decide)).1

/-! ### ConfigStore and CredentialResolver (`get_config_data` / `validate_config`)

The YAML config file holds at most the keys `url`, `user`, `token`,
`password`, `verify`; presence of a key is an `Option`.  The keyring (secret
store) is an association list from account name to secret, always under the
fixed service name `"zmon-cli"`.  Interactive prompts and the external
`zign.api.get_token` call are oracles supplied in the environment. -/

structure Config where
  url : Option String
  user : Option String
  token : Option String
  password : Option String
  verify : Option Bool
  deriving DecidableEq, Repr

/-- The secret store: account name ↦ secret (service fixed to `"zmon-cli"`). -/
abbrev Keyring := List (String × String)

/-- `keyring.get_password("zmon-cli", account)`. -/
def krGet (kr : Keyring) (account : String) : Option String :=
  match kr.find? (fun e => e.1 == account) with
  | some e => some e.2
  | none => none

/-- `keyring.set_password("zmon-cli", account, secret)`. -/
def krSet (kr : Keyring) (account secret : String) : Keyring :=
  (account, secret) :: kr.filter (fun e => e.1 != account)

theorem krGet_krSet_self (kr : Keyring) (u pw : String) : krGet (krSet kr u pw) u = some pw := by
  simp [krGet, krSet, List.find?]

/-- Environment of `validate_config`: the keyring plus the interactive and
external-token oracles. -/
structure VEnv where
  keyring : Keyring
  promptPw : String → String
  zignToken : String

/-- Result of `validate_config`, with an effect log of the secret-store
reads/writes and password prompts performed. -/
structure VOut where
  result : Except Err Config
  keyring : Keyring
  krReads : List String
  krWrites : List (String × String)
  pwPrompts : List String
  deriving DecidableEq, Repr

/--
`validate_config` from `zmon_cli/main.py`:
raise unless `url` is present and non-empty; if `user` is present, fetch the
password from the keyring and prompt (`query_password`, which also stores the
result) when the keyring has none; else if `token` is absent, obtain one from
`zign.api.get_token('zmon', ['uid'])`.
-/
def validate_config (data : Config) (env : VEnv) : VOut :=
  if data.url = none ∨ data.url = some "" then
    { result := .error .configError, keyring := env.keyring,
      krReads := [], krWrites := [], pwPrompts := [] }
  else
    match data.user with
    | some u =>
      match krGet env.keyring u with
      | some pw =>
        { result := .ok { data with password := some pw }, keyring := env.keyring,
          krReads := [u], krWrites := [], pwPrompts := [] }
      | none =>
        let pw := env.promptPw u
        { result := .ok { data with password := some pw }, keyring := krSet env.keyring u pw,
          krReads := [u], krWrites := [(u, pw)], pwPrompts := [u] }
    | none =>
      if data.token = none then
        { result := .ok { data with token := some env.zignToken }, keyring := env.keyring,
          krReads := [], krWrites := [], pwPrompts := [] }
      else
        { result := .ok data, keyring := env.keyring,
          krReads := [], krWrites := [], pwPrompts := [] }

/-- World state of `get_config_data`: the parsed content of the config file
(`none` when the file does not exist) plus the environment. -/
structure World where
  file : Option Config
  env : VEnv
  promptUrl : String
  promptUser : String

/-- Result of one `get_config_data` invocation, with the resulting file
content, keyring, and effect log. -/
structure LoadOut where
  result : Except Err Config
  file : Option Config
  keyring : Keyring
  fileWrites : Nat
  krReads : List String
  krWrites : List (String × String)
  pwPrompts : List String

/--
`get_config_data` from `zmon_cli/main.py`:
if the file exists and holds a `password`, store it in the keyring under the
`user`, delete it from the record and rewrite the file (when `user` is absent
the `data['user']` lookup raises `KeyError`, which the surrounding
`try/except` swallows, leaving file and data unchanged); if the file does not
exist, prompt for `url` and `user` and write a fresh file.  Finally run
`validate_config` on the in-memory record.
-/
def get_config_data (w : World) : LoadOut :=
  match w.file with
  | some d =>
    match d.password with
    | some pw =>
      match d.user with
      | some u =>
        let kr1 := krSet w.env.keyring u pw
        let d1 := { d with password := none }
        let v := validate_config d1 { w.env with keyring := kr1 }
        { result := v.result, file := some d1, keyring := v.keyring, fileWrites := 1,
          krReads := v.krReads, krWrites := (u, pw) :: v.krWrites, pwPrompts := v.pwPrompts }
      | none =>
        let v := validate_config d w.env
        { result := v.result, file := w.file, keyring := v.keyring, fileWrites := 0,
          krReads := v.krReads, krWrites := v.krWrites, pwPrompts := v.pwPrompts }
    | none =>
      let v := validate_config d w.env
      { result := v.result, file := w.file, keyring := v.keyring, fileWrites := 0,
        krReads := v.krReads, krWrites := v.krWrites, pwPrompts := v.pwPrompts }
  | none =>
    let d : Config :=
      { url := some w.promptUrl, user := some w.promptUser, token := none,
        password := none, verify := none }
    let v := validate_config d w.env
    { result := v.result, file := some d, keyring := v.keyring, fileWrites := 1,
      krReads := v.krReads, krWrites := v.krWrites, pwPrompts := v.pwPrompts }

/-- The world as seen by a second `get_config_data` call after `lo`. -/
def nextWorld (w : World) (lo : LoadOut) : World :=
  { file := lo.file,
    env := { keyring := lo.keyring, promptPw := w.env.promptPw, zignToken := w.env.zignToken },
    promptUrl := w.promptUrl, promptUser := w.promptUser }

/-! ### RequestExecutor (`request`) -/

/-- The credential attached by `request`: `Bearer` header when `token` is in
the config, otherwise `HTTPBasicAuth(data['user'], data['password'])`
(`keyError` models the `KeyError` raised when those keys are absent). -/
inductive Auth where
  | bearer (token : String)
  | basic (user password : String)
  | keyError
  deriving DecidableEq, Repr

def requestAuth (data : Config) : Auth :=
  match data.token with
  | some t => .bearer t
  | none =>
    match data.user, data.password with
    | some u, some p => .basic u p
    | _, _ => .keyError

/-- The credential resolved by `validate_config`, when it succeeds. -/
def resolvedAuth (v : VOut) : Option Auth :=
  match v.result with
  | .ok cfg => some (requestAuth cfg)
  | .error _ => none

/-- Outcome of a `request` call. -/
inductive ReqOutcome where
  | success (status : Nat) (body : String)
  | httpError (status : Nat) (body : String)
  | transportExhausted
  deriving DecidableEq, Repr

/-- Statistics of one `request` call against a scripted transport. -/
structure ReqStats where
  transportCalls : Nat
  credentialResolves : Nat
  pwPrompts : Nat
  outcome : ReqOutcome
  deriving DecidableEq, Repr

/--
`request` from `zmon_cli/main.py`, against a transport scripted as the list
of responses `(status, body)` it will produce in order.  Each invocation
resolves credentials (`get_config_data`), performs the HTTP call, and on a
401 prints an error, re-prompts for the password (`query_password`) and
recursively calls `request` again; finally `response.raise_for_status()`
raises for any status in [400, 600).  `transportExhausted` marks the cut-off
of the scripted transport (the real code would keep recursing).
-/
def request : List (Nat × String) → ReqStats
  | [] => { transportCalls := 0, credentialResolves := 1, pwPrompts := 0,
            outcome := .transportExhausted }
  | (s, b) :: rest =>
    if s = 401 then
      let r := request rest
      { transportCalls := r.transportCalls + 1, credentialResolves := r.credentialResolves + 1,
        pwPrompts := r.pwPrompts + 1, outcome := r.outcome }
    else
      { transportCalls := 1, credentialResolves := 1, pwPrompts := 0,
        outcome := if 400 ≤ s ∧ s < 600 then .httpError s b else .success s b }

/-! ### Claim C1: password migration -/

/-- The password field of the on-disk record after a load. -/
def filePassword (lo : LoadOut) : Option (Option String) := lo.file.map (·.password)

/-- The password field of the returned in-memory config, when the load
succeeds. -/
def loadedPassword (lo : LoadOut) : Option (Option String) :=
  match lo.result with
  | .ok cfg => some cfg.password
  | .error _ => none

/-- Claim C1 as stated, instantiated at a world: one load migrates the
password to the secret store, removes it from the file, returns a config
with no password field, and a second load performs no rewrite. -/
def claimC1At (w : World) (u pw : String) : Prop :=
  krGet (get_config_data w).keyring u = some pw ∧
    filePassword (get_config_data w) = some none ∧
    loadedPassword (get_config_data w) = some none ∧
    (get_config_data (nextWorld w (get_config_data w))).fileWrites = 0

/-- A concrete environment and world for the counterexamples. -/
def cexEnv : VEnv := { keyring := [], promptPw := fun _ => "prompted", zignToken := "zt" }

def cexWorldC1 : World :=
  { file := some ⟨some "https://z/", some "alice", none, some "secret", none⟩,
    env := cexEnv, promptUrl := "https://p/", promptUser := "pu" }

/--
C1 (counterexample): loading a file with `password: secret` and
`user: alice` migrates the password and rewrites the file exactly once, but
the returned in-memory config does have a `password` field:
`validate_config` runs after the migration and, because `user` is present,
re-populates `data['password']` from the keyring.
-/
theorem C1_migration_cex :
    ¬ claimC1At cexWorldC1 "alice" "secret" ∧
      loadedPassword (get_config_data cexWorldC1) = some (some "secret") := by
  constructor
  · unfold claimC1At
    decide
  · decide

/--
C1 (amended): for every world whose config file holds a `password`, a `user`
and a non-empty `url`, one load stores the password in the secret store under
the user, leaves the on-disk file without a `password` field, rewrites the
file exactly once, and returns the config with the `password` field
re-populated from the secret store (equal to the migrated password, since
`validate_config` resolves the user's credential after the migration); a
second load of the migrated file performs no file rewrite and returns the
same config.
-/
theorem C1_migration (w : World) (d : Config) (u pw u0 : String)
    (hf : w.file = some d) (hu : d.user = some u) (hp : d.password = some pw)
    (hurl : d.url = some u0) (hne : u0 ≠ "") :
    krGet (get_config_data w).keyring u = some pw ∧
      (get_config_data w).file = some { d with password := none } ∧
      (get_config_data w).fileWrites = 1 ∧
      (get_config_data w).result = .ok { d with password := some pw } ∧
      (get_config_data (nextWorld w (get_config_data w))).fileWrites = 0 ∧
      (get_config_data (nextWorld w (get_config_data w))).file = (get_config_data w).file ∧
      (get_config_data (nextWorld w (get_config_data w))).result = (get_config_data w).result := by
  obtain ⟨file, env, purl, puser⟩ := w
  simp only at hf
  subst hf
  obtain ⟨durl, duser, dtoken, dpass, dverify⟩ := d
  simp only at hu hp hurl
  subst hu; subst hp; subst hurl
  have hcond : ¬ ((some u0 : Option String) = none ∨ (some u0 : Option String) = some "") := by
    simp [hne]
  simp only [get_config_data, validate_config, nextWorld, if_neg hcond, krGet_krSet_self]
  simp [krGet_krSet_self]

/-- Witness for `C1_migration` at a concrete world. -/
theorem C1_migration_witness :
    krGet (get_config_data cexWorldC1).keyring "alice" = some "secret" :=
  (C1_migration cexWorldC1 ⟨some "https://z/", some "alice", none, some "secret", none⟩
    "alice" "secret" "https://z/" rfl rfl rfl rfl (by decide)).1

/-! ### Claim C2: 401 retry -/

/--
C2 (counterexample): on a transport returning 401, 401, 200 the code makes
three transport calls (the claim bounds them by two) and still returns the
200 response: the second 401 does not propagate as a fatal auth failure but
triggers another re-prompt and retry, because the retry is a recursive
self-call of `request`.
-/
theorem C2_retry_cex :
    ¬ ((request [(401, ""), (401, ""), (200, "ok")]).transportCalls ≤ 2) ∧
      (request [(401, ""), (401, ""), (200, "ok")]).outcome = .success 200 "ok" := by
  constructor
  · decide
  · decide

/--
C2 (amended): a 401 response causes one re-prompt and a recursive retry of
the same request, with no bound on the number of retries: on a transport
returning 401 then 200, credentials are resolved exactly twice, the
transport is called exactly twice and the 200 response is returned; in
general each leading 401 adds one transport call, one credential resolution
and one password re-prompt, so a run of k consecutive 401s yields k+1
transport calls (unbounded, not capped at two).
-/
theorem C2_retry :
    (∀ b1 b2 : String, request [(401, b1), (200, b2)]
        = { transportCalls := 2, credentialResolves := 2, pwPrompts := 1,
            outcome := .success 200 b2 }) ∧
      (∀ (b : String) (rest : List (Nat × String)),
        (request ((401, b) :: rest)).transportCalls = (request rest).transportCalls + 1 ∧
          (request ((401, b) :: rest)).credentialResolves
              = (request rest).credentialResolves + 1 ∧
          (request ((401, b) :: rest)).pwPrompts = (request rest).pwPrompts + 1 ∧
          (request ((401, b) :: rest)).outcome = (request rest).outcome) := by
  constructor
  · intro b1 b2
    rfl
  · intro b rest
    refine ⟨?_, ?_, ?_, ?_⟩ <;> simp [request]

/-! ### Claim C5: token credential -/

def cexConfigC5 : Config := ⟨some "https://z/", some "alice", some "abc", none, none⟩

/--
C5 (counterexample): a config with both `token: abc` and `user: alice` does
resolve to the Bearer token `abc`, but `validate_config` checks `user`
first, so it reads the secret store (and, with an empty keyring, prompts and
writes it) even though the token is set.
-/
theorem C5_token_cex :
    cexConfigC5.token = some "abc" ∧
      resolvedAuth (validate_config cexConfigC5 cexEnv) = some (.bearer "abc") ∧
      ¬ ((validate_config cexConfigC5 cexEnv).krReads = [] ∧
          (validate_config cexConfigC5 cexEnv).krWrites = []) := by
  refine ⟨rfl, by decide, by decide⟩

/--
C5 (amended): for every config with a token set and no `user` key (and a
non-empty url), credential resolution returns the config unchanged — the
request then carries `Authorization: Bearer <token>` — and performs no
secret-store read or write and no prompt.  (When `user` is also present the
secret store is consulted for that user, although the token still wins at
request time.)
-/
theorem C5_token (data : Config) (env : VEnv) (t u0 : String)
    (ht : data.token = some t) (hu : data.user = none)
    (hurl : data.url = some u0) (hne : u0 ≠ "") :
    validate_config data env
        = { result := .ok data, keyring := env.keyring,
            krReads := [], krWrites := [], pwPrompts := [] } ∧
      requestAuth data = .bearer t := by
  have hcond : ¬ (data.url = none ∨ data.url = some "") := by
    simp [hurl, hne]
  constructor
  · simp only [validate_config, if_neg hcond, hu, ht]
    simp
  · simp only [requestAuth, ht]

/-- Witness for `C5_token` at a concrete config. -/
theorem C5_token_witness :
    validate_config ⟨some "https://z/", none, some "abc", none, none⟩ cexEnv
        = { result := .ok ⟨some "https://z/", none, some "abc", none, none⟩,
            keyring := [], krReads := [], krWrites := [], pwPrompts := [] } :=
  (C5_token ⟨some "https://z/", none, some "abc", none, none⟩ cexEnv "abc" "https://z/"
    rfl rfl rfl (by decide)).1

/-! ### Claim C6: neither token nor user -/

def cexConfigC6 : Config := ⟨some "https://z/", none, none, none, none⟩

/--
C6 (counterexample): a config with neither `token` nor `user` does not fail
with a `ConfigError` — `validate_config` falls back to
`zign.api.get_token('zmon', ['uid'])` and returns the config with that
token.
-/
theorem C6_no_credential_cex :
    cexConfigC6.user = none ∧ cexConfigC6.token = none ∧
      (validate_config cexConfigC6 cexEnv).result
        = .ok ⟨some "https://z/", none, some "zt", none, none⟩ := by
  refine ⟨rfl, rfl, by decide⟩

/--
C6 (amended): for every config with a non-empty url and neither `token` nor
`user` set, credential resolution succeeds by obtaining a token from the
external token service (`zign`) and returns that token credential; a
`ConfigError` is raised only for a missing or empty `url`.
-/
theorem C6_no_credential (data : Config) (env : VEnv) (u0 : String)
    (hurl : data.url = some u0) (hne : u0 ≠ "") (hu : data.user = none)
    (ht : data.token = none) :
    validate_config data env
        = { result := .ok { data with token := some env.zignToken }, keyring := env.keyring,
            krReads := [], krWrites := [], pwPrompts := [] } ∧
      requestAuth { data with token := some env.zignToken } = .bearer env.zignToken := by
  have hcond : ¬ (data.url = none ∨ data.url = some "") := by
    simp [hurl, hne]
  constructor
  · simp only [validate_config, if_neg hcond, hu, ht]
    simp
  · simp only [requestAuth]

/-- Witness for `C6_no_credential` at a concrete config. -/
theorem C6_no_credential_witness :
    validate_config cexConfigC6 cexEnv
        = { result := .ok { cexConfigC6 with token := some "zt" }, keyring := [],
            krReads := [], krWrites := [], pwPrompts := [] } :=
  (C6_no_credential cexConfigC6 cexEnv "https://z/" rfl (by decide) rfl rfl).1

/-! ### Claim C8: non-2xx, non-401 statuses -/

/--
C8 (counterexample): a 304 response is a non-2xx status other than 401, yet
`request` returns it as a success: `raise_for_status` only raises for
statuses in [400, 600), so the claim's "every non-2xx status other than 401
fails with HttpError" is false for 1xx/3xx responses.
-/
theorem C8_http_error_cex :
    ¬ (200 ≤ 304 ∧ 304 < 300) ∧ (304 : Nat) ≠ 401 ∧
      (request [(304, "not modified")]).outcome = .success 304 "not modified" := by
  refine ⟨by decide, by decide, by decide⟩

/--
C8 (amended): for every response status in [400, 600) other than 401, the
request fails with an `HttpError` carrying the response's status and body
after exactly one transport call and no retry; statuses outside [400, 600)
(including 1xx/3xx non-2xx ones) are returned without error.
-/
theorem C8_http_error (s : Nat) (b : String) (h1 : 400 ≤ s) (h2 : s < 600) (h3 : s ≠ 401) :
    request [(s, b)]
      = { transportCalls := 1, credentialResolves := 1, pwPrompts := 0,
          outcome := .httpError s b } := by
  simp only [request, if_neg h3]
  rw [if_pos ⟨h1, h2⟩]

/-- Witness for `C8_http_error`: a 403 with body "forbidden". -/
theorem C8_http_error_witness :
    request [(403, "forbidden")]
      = { transportCalls := 1, credentialResolves := 1, pwPrompts := 0,
          outcome := .httpError 403 "forbidden" } :=
  C8_http_error 403 "forbidden" (by decide) (by decide) (by decide)

/-! ### Claim C9: token precedence over basic auth -/

/--
C9: for every config with both a token and a user (and a non-empty url),
the resolved config still carries the token, and `request` attaches
`Authorization: Bearer <token>` — never HTTP Basic auth — because the
`'token' in data` branch wins.
-/
theorem C9_token_precedence (data : Config) (env : VEnv) (t u : String)
    (ht : data.token = some t) (hu : data.user = some u)
    (hurl : data.url ≠ none) (hne : data.url ≠ some "") :
    resolvedAuth (validate_config data env) = some (.bearer t) ∧
      ∀ u' p', resolvedAuth (validate_config data env) ≠ some (.basic u' p') := by
  have hcond : ¬ (data.url = none ∨ data.url = some "") := by
    simp [hurl, hne]
  have hres : resolvedAuth (validate_config data env) = some (.bearer t) := by
    simp only [validate_config, if_neg hcond, hu]
    cases hkr : krGet env.keyring u with
    | some pw => simp [resolvedAuth, requestAuth, ht]
    | none => simp [resolvedAuth, requestAuth, ht]
  refine ⟨hres, ?_⟩
  intro u' p' hcontra
  rw [hres] at hcontra
  cases hcontra

/-- Witness for `C9_token_precedence` at a concrete config. -/
theorem C9_token_precedence_witness :
    resolvedAuth (validate_config cexConfigC5 cexEnv) = some (.bearer "abc") :=
  (C9_token_precedence cexConfigC5 cexEnv "abc" "alice" rfl rfl (by decide) (by decide)).1

/-! ### `get_base_url` and the `urllib.parse` model

`get_base_url` splits the URL with `urllib.parse.urlsplit` and reassembles
scheme and network location with path `'/'` via `urllib.parse.urlunsplit`.
The stdlib pair (as in CPython 3.4/3.5, contemporary with this code) is
modelled on `List Char`: a scheme is recognized before the first `':'` when
nonempty and made of scheme characters (and is lowercased), a netloc follows
`'//'` up to the first of `'/'`, `'?'`, `'#'` (with the "Invalid IPv6 URL"
`ValueError` on unbalanced brackets), then the fragment and the query are
split off at the first `'#'` and `'?'`. -/

/-- `scheme_chars` of `urllib.parse`: ASCII letters, digits, `+`, `-`, `.`. -/
def isSchemeChar (c : Char) : Bool :=
  (97 ≤ c.toNat && c.toNat ≤ 122) || (65 ≤ c.toNat && c.toNat ≤ 90) ||
    (48 ≤ c.toNat && c.toNat ≤ 57) || c.toNat = 43 || c.toNat = 45 || c.toNat = 46

/-- `str.lower` on the ASCII range (schemes only contain ASCII characters). -/
def lowerChar (c : Char) : Char :=
  if 65 ≤ c.toNat ∧ c.toNat ≤ 90 then Char.ofNat (c.toNat + 32) else c

/-- Split a list at the first occurrence of `ch` (Python `s.split(ch, 1)`
when `ch` occurs, `none` otherwise). -/
def splitAtChar (ch : Char) : List Char → Option (List Char × List Char)
  | [] => none
  | c :: cs =>
    if c = ch then some ([], cs)
    else
      match splitAtChar ch cs with
      | none => none
      | some (a, b) => some (c :: a, b)

def isDigitChar (c : Char) : Bool := 48 ≤ c.toNat && c.toNat ≤ 57

/-- The scheme-parsing step of `urlsplit`: accept `url[:i]` before the first
`':'` when nonempty and made of scheme characters, lowercasing it — with the
stdlib's two special cases: the literal `http` fast path, and the "not
actually a port number" check (a scheme followed only by digits is not a
scheme). -/
def parseScheme (url : List Char) : List Char × List Char :=
  match splitAtChar ':' url with
  | none => ([], url)
  | some (a, rest) =>
    if a = "http".data then (a, rest)
    else if a ≠ [] ∧ a.all isSchemeChar ∧ (rest = [] ∨ rest.any (fun c => !isDigitChar c)) then
      (a.map lowerChar, rest)
    else ([], url)

def isNetlocDelim (c : Char) : Bool := c = '/' || c = '?' || c = '#'

/-- The bracket sanity check of `urlsplit` (raises "Invalid IPv6 URL"). -/
def bracketErr (n : List Char) : Bool :=
  (n.contains '[' && !n.contains ']') || (n.contains ']' && !n.contains '[')

/-- The netloc-parsing step of `urlsplit`: if the rest starts with `'//'`,
the netloc runs to the first of `'/'`, `'?'`, `'#'`. -/
def parseNetloc (url : List Char) : Except Unit (List Char × List Char) :=
  if url.take 2 = ['/', '/'] then
    if bracketErr ((url.drop 2).takeWhile (fun c => !isNetlocDelim c)) then .error ()
    else .ok ((url.drop 2).takeWhile (fun c => !isNetlocDelim c),
              (url.drop 2).dropWhile (fun c => !isNetlocDelim c))
  else .ok ([], url)

/-- Fragment split: `if '#' in url: url, fragment = url.split('#', 1)`. -/
def splitFragment (url : List Char) : List Char × List Char :=
  match splitAtChar '#' url with
  | none => (url, [])
  | some (a, b) => (a, b)

/-- Query split: `if '?' in url: url, query = url.split('?', 1)`. -/
def splitQuery (url : List Char) : List Char × List Char :=
  match splitAtChar '?' url with
  | none => (url, [])
  | some (a, b) => (a, b)

structure SplitResult where
  scheme : List Char
  netloc : List Char
  path : List Char
  query : List Char
  fragment : List Char
  deriving DecidableEq, Repr

/-- `urllib.parse.urlsplit` (scheme, netloc, path, query, fragment). -/
def urlsplit (url : List Char) : Except Unit SplitResult :=
  let p1 := parseScheme url
  match parseNetloc p1.2 with
  | .error e => .error e
  | .ok nr =>
    let p3 := splitFragment nr.2
    let p4 := splitQuery p3.1
    .ok ⟨p1.1, nr.1, p4.1, p4.2, p3.2⟩

/-- `urllib.parse.urlunsplit`. -/
def urlunsplit (scheme netloc path query fragment : List Char) : List Char :=
  let url1 :=
    if netloc ≠ [] ∨ (path ≠ [] ∧ path.take 2 = ['/', '/']) then
      '/' :: '/' ::
        (netloc ++ (if path ≠ [] ∧ path.take 1 ≠ ['/'] then '/' :: path else path))
    else path
  let url2 := if scheme ≠ [] then scheme ++ ':' :: url1 else url1
  let url3 := if query ≠ [] then url2 ++ '?' :: query else url2
  if fragment ≠ [] then url3 ++ '#' :: fragment else url3

/--
`get_base_url` from `zmon_cli/main.py`:
`urlunsplit(list(urlsplit(url)[:2]) + ['/', '', ''])`.
-/
def get_base_url (url : List Char) : Except Unit (List Char) :=
  match urlsplit url with
  | .error e => .error e
  | .ok r => .ok (urlunsplit r.scheme r.netloc ['/'] [] [])

/-! ### URL lemmas -/

theorem splitAtChar_eq_some {ch : Char} : ∀ {l a b : List Char},
    splitAtChar ch l = some (a, b) → l = a ++ ch :: b ∧ ch ∉ a := by
  intro l
  induction l with
  | nil => intro a b h; cases h
  | cons c cs ih =>
    intro a b h
    simp only [splitAtChar] at h
    by_cases hc : c = ch
    · rw [if_pos hc] at h
      cases h
      subst hc
      exact ⟨rfl, by simp⟩
    · rw [if_neg hc] at h
      cases hsp : splitAtChar ch cs with
      | none => rw [hsp] at h; cases h
      | some ab =>
        obtain ⟨a', b'⟩ := ab
        rw [hsp] at h
        cases h
        obtain ⟨hl, hnm⟩ := ih hsp
        refine ⟨by rw [hl]; rfl, ?_⟩
        intro hmem
        rcases List.mem_cons.mp hmem with h1 | h1
        · exact hc h1.symm
        · exact hnm h1

theorem splitAtChar_append {ch : Char} {s : List Char} (h : ch ∉ s) (r : List Char) :
    splitAtChar ch (s ++ ch :: r) = some (s, r) := by
  induction s with
  | nil => simp [splitAtChar]
  | cons c cs ih =>
    have hc : ¬ c = ch := by
      intro hcc
      exact h (by rw [hcc]; exact List.mem_cons_self _ _)
    have hcs : ch ∉ cs := fun hm => h (List.mem_cons.mpr (Or.inr hm))
    simp only [List.cons_append, splitAtChar, if_neg hc]
    rw [show cs.append (ch :: r) = cs ++ ch :: r from rfl, ih hcs]

theorem char_ofNat_upper_toNat {m : Nat} (h1 : 65 ≤ m) (h2 : m ≤ 90) :
    (Char.ofNat (m + 32)).toNat = m + 32 := by
  interval_cases m <;> decide

theorem lowerChar_toNat (c : Char) :
    (lowerChar c).toNat
      = if 65 ≤ c.toNat ∧ c.toNat ≤ 90 then c.toNat + 32 else c.toNat := by
  unfold lowerChar
  by_cases h : 65 ≤ c.toNat ∧ c.toNat ≤ 90
  · rw [if_pos h, if_pos h, char_ofNat_upper_toNat h.1 h.2]
  · rw [if_neg h, if_neg h]

theorem lowerChar_idem (c : Char) : lowerChar (lowerChar c) = lowerChar c := by
  unfold lowerChar
  by_cases h : 65 ≤ c.toNat ∧ c.toNat ≤ 90
  · rw [if_pos h]
    have ht : (Char.ofNat (c.toNat + 32)).toNat = c.toNat + 32 :=
      char_ofNat_upper_toNat h.1 h.2
    rw [if_neg (by rw [ht]; omega)]
  · rw [if_neg h, if_neg h]

theorem lowerChar_schemeChar {c : Char} (h : isSchemeChar c = true) :
    isSchemeChar (lowerChar c) = true := by
  have ht := lowerChar_toNat c
  simp only [isSchemeChar, Bool.or_eq_true, Bool.and_eq_true, decide_eq_true_eq] at h ⊢
  by_cases hu : 65 ≤ c.toNat ∧ c.toNat ≤ 90
  · rw [if_pos hu] at ht
    rw [ht]
    omega
  · rw [if_neg hu] at ht
    rw [ht]
    omega

theorem schemeChar_not_mem {s : List Char} (hall : s.all isSchemeChar = true) {ch : Char}
    (hch : isSchemeChar ch = false) : ch ∉ s := by
  intro hm
  have := List.all_eq_true.mp hall ch hm
  rw [hch] at this
  cases this

/-- Equation lemma: `parseScheme` when the URL contains a `':'`. -/
theorem parseScheme_eq_some {u a rest : List Char} (h : splitAtChar ':' u = some (a, rest)) :
    parseScheme u
      = if a = "http".data then (a, rest)
        else if a ≠ [] ∧ a.all isSchemeChar ∧ (rest = [] ∨ rest.any (fun c => !isDigitChar c))
        then (a.map lowerChar, rest)
        else ([], u) := by
  unfold parseScheme
  rw [h]

/-- Equation lemma: `parseScheme` when the URL contains no `':'`. -/
theorem parseScheme_eq_none {u : List Char} (h : splitAtChar ':' u = none) :
    parseScheme u = ([], u) := by
  unfold parseScheme
  rw [h]

/-- The invariants of a scheme produced by `parseScheme`: empty, or nonempty,
made of scheme characters and already lowercase. -/
theorem parseScheme_fst_ok (u : List Char) :
    (parseScheme u).1 = [] ∨
      ((parseScheme u).1 ≠ [] ∧ (parseScheme u).1.all isSchemeChar = true ∧
        (parseScheme u).1.map lowerChar = (parseScheme u).1) := by
  cases hsp : splitAtChar ':' u with
  | none => left; rw [parseScheme_eq_none hsp]
  | some ab =>
    obtain ⟨a, b⟩ := ab
    rw [parseScheme_eq_some hsp]
    by_cases hh : a = "http".data
    · right
      rw [if_pos hh]
      subst hh
      refine ⟨?_, ?_, ?_⟩ <;> · dsimp only; decide
    · rw [if_neg hh]
      split
      · next hc =>
        right
        refine ⟨?_, ?_, ?_⟩
        · simp only [ne_eq, List.map_eq_nil_iff]
          exact hc.1
        · rw [List.all_eq_true]
          intro c hcm
          rcases List.mem_map.mp hcm with ⟨c0, hc0, rfl⟩
          exact lowerChar_schemeChar (List.all_eq_true.mp hc.2.1 c0 hc0)
        · rw [List.map_map]
          exact List.map_congr_left fun c _ => lowerChar_idem c
      · left; rfl

/-- The invariants of a netloc produced by `parseNetloc`: no `/?#` characters
and balanced brackets. -/
theorem parseNetloc_ok {u : List Char} {nr : List Char × List Char}
    (h : parseNetloc u = .ok nr) :
    nr.1.all (fun c => !isNetlocDelim c) = true ∧ bracketErr nr.1 = false := by
  unfold parseNetloc at h
  by_cases h2 : u.take 2 = ['/', '/']
  · rw [if_pos h2] at h
    by_cases hbr : bracketErr ((u.drop 2).takeWhile (fun c => !isNetlocDelim c)) = true
    · rw [if_pos hbr] at h
      cases h
    · rw [if_neg hbr] at h
      cases h
      constructor
      · rw [List.all_eq_true]
        intro c hc
        dsimp only at hc
        exact List.mem_takeWhile_imp (p := fun c => !isNetlocDelim c) hc
      · simpa using hbr
  · rw [if_neg h2] at h
    cases h
    exact ⟨rfl, rfl⟩

theorem urlsplit_ok_fields {u : List Char} {sr : SplitResult} (h : urlsplit u = .ok sr) :
    ∃ nr : List Char × List Char,
      parseNetloc (parseScheme u).2 = .ok nr ∧ sr.scheme = (parseScheme u).1 ∧
        sr.netloc = nr.1 := by
  simp only [urlsplit] at h
  cases hnr : parseNetloc (parseScheme u).2 with
  | error e => rw [hnr] at h; cases h
  | ok nr =>
    rw [hnr] at h
    cases h
    exact ⟨nr, rfl, rfl, rfl⟩

/-- `parseScheme` does not recognize a scheme when the URL starts with a
non-scheme character. -/
theorem parseScheme_head {c : Char} (X : List Char) (hc : isSchemeChar c = false) :
    parseScheme (c :: X) = ([], c :: X) := by
  cases hsp : splitAtChar ':' (c :: X) with
  | none => rw [parseScheme_eq_none hsp]
  | some ab =>
    obtain ⟨a, b⟩ := ab
    rw [parseScheme_eq_some hsp]
    obtain ⟨hl, _⟩ := splitAtChar_eq_some hsp
    cases a with
    | nil =>
      rw [if_neg (by decide), if_neg (by simp)]
    | cons c' a' =>
      rw [List.cons_append] at hl
      injection hl with h1 _
      subst h1
      rw [if_neg ?hfast, if_neg ?hgen]
      case hfast =>
        intro hh
        have hh' : c :: a' = ['h', 't', 't', 'p'] := hh
        injection hh' with h2 _
        rw [h2] at hc
        exact absurd hc (by decide)
      case hgen =>
        intro hcond
        have := List.all_eq_true.mp hcond.2.1 c (List.mem_cons_self _ _)
        rw [hc] at this
        cases this

/-- `parseScheme` recovers a valid already-lowercase scheme followed by
`':'` and a slash-initial rest. -/
theorem parseScheme_append {s : List Char} (X : List Char) (hne : s ≠ [])
    (hall : s.all isSchemeChar = true) (hmap : s.map lowerChar = s) :
    parseScheme (s ++ ':' :: '/' :: X) = (s, '/' :: X) := by
  have hnc : ':' ∉ s := schemeChar_not_mem hall (by decide)
  rw [parseScheme_eq_some (splitAtChar_append hnc ('/' :: X))]
  by_cases hh : s = "http".data
  · rw [if_pos hh]
  · have hany : (('/' :: X).any fun c => !isDigitChar c) = true := by
      have h0 : (!isDigitChar '/') = true := by decide
      simp [List.any_cons, h0]
    rw [if_neg hh, if_pos ⟨hne, hall, Or.inr hany⟩, hmap]

/-- Re-parsing `'//' ++ netloc ++ '/'` recovers the netloc. -/
theorem parseNetloc_reparse {n : List Char} (hn : n.all (fun c => !isNetlocDelim c) = true)
    (hb : bracketErr n = false) :
    parseNetloc ('/' :: '/' :: (n ++ ['/'])) = .ok (n, ['/']) := by
  have hp : ∀ a ∈ n, (fun c => !isNetlocDelim c) a = true := fun a ha =>
    List.all_eq_true.mp hn a ha
  unfold parseNetloc
  rw [if_pos (show ('/' :: '/' :: (n ++ ['/'])).take 2 = ['/', '/'] from rfl)]
  rw [show ('/' :: '/' :: (n ++ ['/'])).drop 2 = n ++ ['/'] from rfl]
  rw [List.takeWhile_append_of_pos hp, List.dropWhile_append_of_pos hp]
  rw [show (['/'] : List Char).takeWhile (fun c => !isNetlocDelim c) = [] from rfl]
  rw [show (['/'] : List Char).dropWhile (fun c => !isNetlocDelim c) = ['/'] from rfl]
  rw [List.append_nil]
  rw [if_neg (by rw [hb]; exact Bool.false_ne_true)]

/-- The shape of `get_base_url`'s reassembly: scheme, then netloc, then a
single `'/'`. -/
theorem urlunsplit_base (s n : List Char) :
    urlunsplit s n ['/'] [] []
      = (if s ≠ [] then s ++ [':'] else []) ++
        (if n ≠ [] then '/' :: '/' :: n else []) ++ ['/'] := by
  unfold urlunsplit
  by_cases hn : n = []
  · subst hn
    by_cases hs : s = []
    · subst hs; simp
    · simp [hs]
  · by_cases hs : s = []
    · subst hs; simp [hn]
    · simp [hn, hs]

/-- Re-parsing the base URL recovers (scheme, netloc, '/', '', ''). -/
theorem urlsplit_base {s n : List Char}
    (hs : s = [] ∨ (s ≠ [] ∧ s.all isSchemeChar = true ∧ s.map lowerChar = s))
    (hn : n.all (fun c => !isNetlocDelim c) = true) (hb : bracketErr n = false) :
    urlsplit (urlunsplit s n ['/'] [] []) = .ok ⟨s, n, ['/'], [], []⟩ := by
  rw [urlunsplit_base]
  rcases hs with hs | ⟨hne, hall, hmap⟩
  · subst hs
    by_cases hn0 : n = []
    · subst hn0; decide
    · rw [if_neg (by simp), if_pos hn0]
      rw [show ([] : List Char) ++ ('/' :: '/' :: n) ++ ['/'] = '/' :: ('/' :: (n ++ ['/']))
        from by simp]
      simp only [urlsplit]
      rw [parseScheme_head _ (by decide)]
      rw [show (([] : List Char), '/' :: ('/' :: (n ++ ['/']))).2 = '/' :: '/' :: (n ++ ['/'])
        from rfl]
      rw [parseNetloc_reparse hn hb]
      rfl
  · by_cases hn0 : n = []
    · subst hn0
      rw [if_pos hne, if_neg (by simp)]
      rw [show (s ++ [':']) ++ ([] : List Char) ++ ['/'] = s ++ ':' :: '/' :: [] from by simp]
      simp only [urlsplit]
      rw [parseScheme_append [] hne hall hmap]
      rw [show ((s, ['/'] ) : List Char × List Char).2 = ['/'] from rfl]
      rw [show parseNetloc ['/'] = Except.ok (([] : List Char), ['/']) from rfl]
      rfl
    · rw [if_pos hne, if_pos hn0]
      rw [show (s ++ [':']) ++ ('/' :: '/' :: n) ++ ['/']
          = s ++ ':' :: '/' :: ('/' :: (n ++ ['/'])) from by simp]
      simp only [urlsplit]
      rw [parseScheme_append _ hne hall hmap]
      rw [show ((s, '/' :: ('/' :: (n ++ ['/']))) : List Char × List Char).2
        = '/' :: '/' :: (n ++ ['/']) from rfl]
      rw [parseNetloc_reparse hn hb]
      rfl

/-! ### Claim C10 -/

/--
C10 (counterexample): `get_base_url` is not defined on every URL string —
on `"//["` the stdlib `urlsplit` raises `ValueError("Invalid IPv6 URL")`
(unbalanced brackets in the netloc), so no base URL is returned at all.
-/
theorem C10_base_url_cex : ¬ ∃ r, get_base_url ("//[".data) = .ok r := by
  rintro ⟨r, hr⟩
  have h0 : get_base_url ("//[".data) = .error () := by decide
  rw [h0] at hr
  cases hr

/--
C10 (amended): for every URL string on which `urlsplit` does not raise
(netloc brackets balanced), `get_base_url` returns exactly the scheme and
network location of the URL followed by the single path `'/'` (path, query
and fragment discarded), and it is idempotent on such output:
`get_base_url (get_base_url u) = get_base_url u`.
-/
theorem C10_base_url (u r : List Char) (h : get_base_url u = .ok r) :
    (∃ sr, urlsplit u = .ok sr ∧
        r = (if sr.scheme ≠ [] then sr.scheme ++ [':'] else []) ++
            (if sr.netloc ≠ [] then '/' :: '/' :: sr.netloc else []) ++ ['/']) ∧
      get_base_url r = .ok r := by
  simp only [get_base_url] at h
  cases hsp : urlsplit u with
  | error e => rw [hsp] at h; cases h
  | ok sr =>
    rw [hsp] at h
    cases h
    obtain ⟨nr, hnr, hsch, hnet⟩ := urlsplit_ok_fields hsp
    have hsOk : sr.scheme = [] ∨
        (sr.scheme ≠ [] ∧ sr.scheme.all isSchemeChar = true ∧
          sr.scheme.map lowerChar = sr.scheme) := by
      rw [hsch]; exact parseScheme_fst_ok u
    have hnOk := parseNetloc_ok hnr
    rw [← hnet] at hnOk
    constructor
    · exact ⟨sr, rfl, urlunsplit_base sr.scheme sr.netloc⟩
    · have hrepr := urlsplit_base hsOk hnOk.1 hnOk.2
      simp only [get_base_url, hrepr]

/-- Witness for `C10_base_url` at the docstring example of `get_base_url`. -/
theorem C10_base_url_witness :
    get_base_url ("https://localhost:8443/".data) = .ok ("https://localhost:8443/".data) :=
  (C10_base_url ("https://localhost:8443/example/api/v123".data)
    ("https://localhost:8443/".data) (by decide)).2

end ZmonCli
